import Mathlib

/-!
A verification development for the Arkhe(n) Language runtime
(`src/arkhe/anl/python/runtime.py`).

The development shallowly embeds the three components the specification
covers:

* the typed value system (`ANLType`, values as `PyVal`);
* the `ExpressionEngine` expression compiler, modelled as the textual
  substitution pipeline of `ExpressionEngine.parse` followed by a model
  of Python's evaluation of the arithmetic expressions that pipeline
  produces (numeric literals with underscore digit grouping, products,
  subscripts, quoted dictionary keys and `.data` attribute access);
* the `Node` / `Handover` / `Hypergraph` evolution engine, with machine
  floats abstracted to `ℚ` for the gate/coherence arithmetic (every
  finite float is rational) and to `ℝ` for the transcendental Berry
  phase angle.  Python's in-place mutation becomes explicit state
  passing; the callbacks stored on Python objects (`dynamics`,
  `update_from_handover`) become explicit environments keyed by node
  id, and `np.random.random()` draws become an explicit stream of
  rationals in `[0,1)`.

`np.mean` of an empty list is NaN in numpy; the value `RVal` makes that
case explicit instead of collapsing it into `0/0 = 0` of `ℚ`.
-/

/-- The `ANLType` enumeration from the source: tags of the ANL type system. -/
inductive ANLType where
  | SCALAR | VECTOR | TENSOR | FUNCTION | NODE | HANDOVER
deriving DecidableEq

/-- The `PreservationProtocol` enumeration from the source. -/
inductive PreservationProtocol where
  | CONSERVATIVE | CREATIVE | DESTRUCTIVE | TRANSMUTATIVE
deriving DecidableEq

/-- Runtime values that can appear in the evaluation environment of a
compiled ANL expression: numbers, numpy vectors and square matrices, an
`ANLValue(type, data)` record, and a Python dict keyed by strings
(character lists). -/
inductive PyVal where
  | num : ℚ → PyVal
  | vec : List ℚ → PyVal
  | mat : List (List ℚ) → PyVal
  | anlval : ANLType → PyVal → PyVal
  | dict : List (List Char × PyVal) → PyVal

/-- The ASCII single-quote character used by the compiler when it emits
`context[...]` lookups. -/
def quoteChar : Char := Char.ofNat 39

/-- A model of Python's `str.replace`: replace every non-overlapping
occurrence of `pat` in `s` by `rep`, scanning left to right and
continuing after each inserted replacement.  Fuel-indexed to make the
recursion structural; `pyReplace` supplies enough fuel. -/
def pyReplaceAux (pat rep : List Char) : ℕ → List Char → List Char
  | 0, s => s
  | _, [] => []
  | fuel + 1, c :: rest =>
    if pat.isPrefixOf (c :: rest) then
      rep ++ pyReplaceAux pat rep fuel ((c :: rest).drop pat.length)
    else
      c :: pyReplaceAux pat rep fuel rest

/-- Python's `s.replace(pat, rep)` on character lists. -/
def pyReplace (pat rep s : List Char) : List Char :=
  pyReplaceAux pat rep (s.length + 1) s

/-- Word characters in the sense of the regex class used by
`_expand_tensor_notation` (ASCII letters, digits and underscore). -/
def isWordChar (c : Char) : Bool := c.isAlphanum || c = '_'

/-- A model of `ExpressionEngine._expand_tensor_notation`: the
left-to-right, first-match substitution performed by
`re.sub(rf"{name}_(\w+)", rf"{name}[\1]", expr)`.  At each position, if
the input starts with `name` followed by an underscore and at least one
word character, the maximal word-character run after the underscore
(which may itself contain underscores, since the regex group is greedy)
is wrapped as `name[run]`; otherwise the scan advances one character. -/
def expandTensorAux (name : List Char) : ℕ → List Char → List Char
  | 0, s => s
  | _, [] => []
  | fuel + 1, c :: rest =>
    if name.isPrefixOf (c :: rest) then
      match (c :: rest).drop name.length with
      | '_' :: w :: ws =>
        if isWordChar w then
          name ++ ('[' :: (w :: ws).takeWhile isWordChar) ++
            (']' :: expandTensorAux name fuel ((w :: ws).dropWhile isWordChar))
        else
          c :: expandTensorAux name fuel rest
      | _ => c :: expandTensorAux name fuel rest
    else
      c :: expandTensorAux name fuel rest

/-- The tensor-subscript rewrite of `ExpressionEngine._expand_tensor_notation`. -/
def expandTensor (name expr : List Char) : List Char :=
  expandTensorAux name (expr.length + 1) expr

/-- The built-in constant table of `ExpressionEngine.__init__`, in dict
insertion order, with each value rendered as Python's `str()` renders it
(`str(np.pi)` is the shortest round-tripping decimal of the double). -/
def anlConstants : List (List Char × List Char) :=
  [("pi".toList, "3.141592653589793".toList),
   ("c".toList, "299792458.0".toList),
   ("G".toList, "6.674e-11".toList),
   ("hbar".toList, "1.055e-34".toList),
   ("k_B".toList, "1.381e-23".toList)]

namespace ExpressionEngine

/-- The textual substitution pipeline of `ExpressionEngine.parse`: first
every constant name is replaced by its literal value, in table order;
then, in context order, every SCALAR context variable `name` is replaced
by the text `context['name'].data`, and for every TENSOR context
variable the Einstein-subscript rewrite is applied.  Other context
entries are ignored, exactly as the source's `if`/`elif` does. -/
def parse (context : List (List Char × ANLType)) (expr : List Char) : List Char :=
  let e1 := anlConstants.foldl (fun e p => pyReplace p.1 p.2 e) expr
  context.foldl (fun e p =>
    match p.2 with
    | ANLType.SCALAR =>
        pyReplace p.1
          ("context[".toList ++ quoteChar :: p.1 ++ quoteChar :: "].data".toList) e
    | ANLType.TENSOR => expandTensor p.1 e
    | _ => e) e1

end ExpressionEngine

/-- Characters that may appear in a Python numeric literal of the kind
the compiled expressions contain (digits, a decimal point, and the
underscore digit-grouping separator). -/
def isNumChar (c : Char) : Bool := c.isDigit || c = '.' || c = '_'

/-- The natural number denoted by a list of decimal digits. -/
def digitsVal (cs : List Char) : ℕ :=
  cs.foldl (fun a c => 10 * a + (c.toNat - 48)) 0

/-- A check that a character run is a `digitpart` of Python's
numeric-literal grammar when it starts with a digit: underscores are
digit-grouping separators that may appear only between two digits. -/
def digitPartAux : List Char → Bool
  | [] => true
  | c :: rest =>
    if c.isDigit then digitPartAux rest
    else if c = '_' then
      match rest with
      | d :: rest2 => d.isDigit && digitPartAux rest2
      | [] => false
    else false

/-- Python's `digitpart`: nonempty, starts and ends with a digit, single
underscores only between digits. -/
def validDigitPart (cs : List Char) : Bool :=
  match cs with
  | [] => false
  | c :: _ => c.isDigit && digitPartAux cs

/-- The rational value of a Python numeric literal, `none` when the token
is not a valid literal (evaluating it raises a `SyntaxError`).  A decimal
integer literal must not have leading zeros (`0_1` and `01` are syntax
errors); a float literal is `digitpart "." digitpart` with either side
optional but not both. -/
def numLit (cs : List Char) : Option ℚ :=
  match cs.span (fun c => c ≠ '.') with
  | (ip, []) =>
    if validDigitPart ip &&
        (match ip with
         | '0' :: _ :: _ => (ip.filter (fun c => c ≠ '_')).all (fun c => c = '0')
         | _ => true) then
      some (digitsVal (ip.filter (fun c => c ≠ '_')) : ℚ)
    else none
  | (ip, _ :: fp) =>
    if fp.all (fun c => c ≠ '.') &&
        (ip.isEmpty || validDigitPart ip) && (fp.isEmpty || validDigitPart fp) &&
        !(ip.isEmpty && fp.isEmpty) then
      let fd := fp.filter (fun c => c ≠ '_')
      some ((digitsVal (ip.filter (fun c => c ≠ '_')) : ℚ) +
        (digitsVal fd : ℚ) / (10 ^ fd.length : ℚ))
    else none

/-- Python subscripting with a non-negative integer: a matrix yields the
indexed row, a vector yields the indexed entry. -/
def indexVal (v : PyVal) (q : ℚ) : Option PyVal :=
  if q.den = 1 ∧ 0 ≤ q.num then
    match v with
    | PyVal.mat rows => (rows.get? q.num.toNat).map PyVal.vec
    | PyVal.vec xs => (xs.get? q.num.toNat).map PyVal.num
    | _ => none
  else none

/-- Lookup in a modelled Python dict. -/
def dictGet (entries : List (List Char × PyVal)) (key : List Char) : Option PyVal :=
  (entries.find? (fun p => p.1 = key)).map (fun p => p.2)

/-- Evaluation of a chain of Python trailers on a value: subscripting with
a quoted string key (dict lookup), subscripting with an integer literal,
and `.data` attribute access on an `ANLValue`. -/
def evalTrail (fuel : ℕ) (v : PyVal) (s : List Char) : Option (PyVal × List Char) :=
  match fuel, s with
  | 0, _ => none
  | _, [] => some (v, [])
  | fuel + 1, '[' :: rest =>
    match rest with
    | [] => none
    | c :: cs =>
      if c = quoteChar then
        match v, cs.dropWhile (fun d => d ≠ quoteChar) with
        | PyVal.dict entries, _ :: ']' :: rest2 =>
          match dictGet entries (cs.takeWhile (fun d => d ≠ quoteChar)) with
          | some v2 => evalTrail fuel v2 rest2
          | none => none
        | _, _ => none
      else if c.isDigit then
        match (c :: cs).dropWhile isNumChar with
        | ']' :: rest2 =>
          match numLit ((c :: cs).takeWhile isNumChar) with
          | some q =>
            match indexVal v q with
            | some v2 => evalTrail fuel v2 rest2
            | none => none
          | none => none
        | _ => none
      else none
  | fuel + 1, '.' :: rest =>
    if "data".toList.isPrefixOf rest then
      match v with
      | PyVal.anlval _ d => evalTrail fuel d (rest.drop 4)
      | _ => none
    else none
  | _, s => some (v, s)

/-- Drop the spaces Python's tokenizer skips. -/
def skipSpaces (s : List Char) : List Char := s.dropWhile (fun c => c = ' ')

/-- Evaluation of a primary expression: a numeric literal, or an
identifier looked up in the evaluation environment followed by a trailer
chain. -/
def evalPrimary (env : List Char → Option PyVal) (fuel : ℕ) (s : List Char) :
    Option (PyVal × List Char) :=
  match skipSpaces s with
  | [] => none
  | c :: rest =>
    if c.isDigit then
      match numLit ((c :: rest).takeWhile isNumChar) with
      | some q => some (PyVal.num q, (c :: rest).dropWhile isNumChar)
      | none => none
    else if c.isAlpha || c = '_' then
      match env ((c :: rest).takeWhile isWordChar) with
      | some v => evalTrail fuel v ((c :: rest).dropWhile isWordChar)
      | none => none
    else none

/-- Evaluation of the remaining factors of a product chain `v * p * p * ...`. -/
def evalMulAux (env : List Char → Option PyVal) : ℕ → PyVal → List Char →
    Option (PyVal × List Char)
  | 0, _, _ => none
  | fuel + 1, v, s =>
    match skipSpaces s with
    | '*' :: rest =>
      match evalPrimary env fuel rest with
      | some (v2, s2) =>
        match v, v2 with
        | PyVal.num a, PyVal.num b => evalMulAux env fuel (PyVal.num (a * b)) s2
        | _, _ => none
      | none => none
    | s2 => some (v, s2)

/-- A model of the Python evaluation performed by the closure that
`ExpressionEngine.parse` returns: the compiled text is evaluated as an
arithmetic expression (product chains of primaries) against an
environment holding the registered functions together with the runtime
context the caller passes in. -/
def evalExpr (env : List Char → Option PyVal) (s : List Char) : Option PyVal :=
  match evalPrimary env (s.length + 1) s with
  | some (v, rest) =>
    match evalMulAux env (s.length + 1) v rest with
    | some (v2, rest2) => if skipSpaces rest2 = [] then some v2 else none
    | none => none
  | none => none

/-- Direct multi-index access `m[i, j]` into a square array, the reading
the source's own comment (`g_mu_nu -> g[mu, nu]`) promises for the
tensor-subscript rewrite. -/
def matIndex (m : List (List ℚ)) (i j : ℕ) : Option ℚ :=
  (m.get? i).bind (fun row => row.get? j)

/-- A numpy float aggregate result: a finite value (abstracted to `ℚ`)
or NaN. -/
inductive RVal where
  | fin : ℚ → RVal
  | nan : RVal
deriving DecidableEq

/-- The function `np.mean` on a list of machine floats, abstracted to
exact rational arithmetic.  The empty mean is NaN: numpy emits a
RuntimeWarning and returns `nan`, it does not raise. -/
def npMean (xs : List ℚ) : RVal :=
  if xs.isEmpty then RVal.nan else RVal.fin (xs.sum / xs.length)

/-- The function `np.angle(complex(re, im))`: the argument of the complex
number `re + im*i`. -/
noncomputable def npAngle (re im : ℚ) : ℝ :=
  Complex.arg ⟨(re : ℝ), (im : ℝ)⟩

/-- The `Node` dataclass.  The `dynamics` and `observables` callbacks
stored on the Python object are modelled as external environments keyed
by node id (see `evolveNodes`); the fields the engine itself reads and
writes are carried here. -/
structure Node where
  id : String
  state_space : ANLType
  attributes : List (String × PyVal)
  local_coherence : ℚ

/-- The `Handover` dataclass.  The Python object holds direct references
to its source and target nodes; the model names them by the id under
which they live in the owning hypergraph, and the `execute` model
receives the current source node explicitly.  `phase_accumulated` lives
in `ℝ` because the accumulated Berry phase is transcendental. -/
structure Handover (α : Type) where
  id : String
  source : String
  target : String
  protocol : PreservationProtocol
  map_state : Node → Option α
  fidelity : ℚ
  entanglement : ℚ
  phase_accumulated : ℝ

/-- The method `Handover.execute`, with the `np.random.random()` draw and
the current state of the source node passed explicitly.  If the draw
exceeds `fidelity` the handover is skipped: `None` is returned before
anything is touched.  Otherwise the Berry phase
`angle(complex(source.local_coherence, entanglement))` is added to
`phase_accumulated` and `map_state(source)` is returned. -/
noncomputable def Handover.execute (h : Handover α) (draw : ℚ) (src : Node) :
    Handover α × Option α :=
  if draw > h.fidelity then (h, none)
  else
    ({ h with phase_accumulated :=
        h.phase_accumulated + npAngle src.local_coherence h.entanglement },
      h.map_state src)

/-- An entry of `Hypergraph.handovers`: either a fidelity-gated
`Handover`, or an `InterTheoryHandover` (source model, target model,
converter), which `evolve` does not auto-fire. -/
inductive HEdge (α : Type) where
  | ho : Handover α → HEdge α
  | inter : String → String → (Node → Node → Option α) → HEdge α

/-- The `Hypergraph` container.  `nodes` is the insertion-ordered dict of
nodes, `handovers` the ordered edge list; `α` is the (opaque) type of
values produced by `map_state` callbacks. -/
structure Hypergraph (α : Type) where
  name : String
  nodes : List (String × Node)
  handovers : List (HEdge α)
  global_coherence : RVal
  integration_phi : ℚ
  history : List (ℚ × RVal)

/-- The `Hypergraph.__init__` constructor: empty node dict and handover
list, zero coherence and phi, empty history. -/
def emptyHypergraph (α : Type) (name : String) : Hypergraph α :=
  ⟨name, [], [], RVal.fin 0, 0, []⟩

/-- Insertion into the node dict, last write wins, position of an
existing key preserved (Python dict update semantics). -/
def dictInsert (ns : List (String × Node)) (k : String) (n : Node) :
    List (String × Node) :=
  if ns.any (fun p => p.1 = k) then
    ns.map (fun p => if p.1 = k then (k, n) else p)
  else ns ++ [(k, n)]

/-- The method `Hypergraph.add_node`. -/
def Hypergraph.add_node (g : Hypergraph α) (n : Node) : Hypergraph α :=
  { g with nodes := dictInsert g.nodes n.id n }

/-- The method `Hypergraph.add_handover`. -/
def Hypergraph.add_handover (g : Hypergraph α) (e : HEdge α) : Hypergraph α :=
  { g with handovers := g.handovers ++ [e] }

/-- Phase 1 of `Hypergraph.evolve`: call `node.evolve(dt)` on every node
in iteration order; a node whose `dynamics` is absent in the environment
`dyn` is left unchanged. -/
def evolveNodes (dyn : String → Option (ℚ → Node → Node)) (dt : ℚ)
    (ns : List (String × Node)) : List (String × Node) :=
  ns.map (fun p =>
    match dyn p.1 with
    | some f => (p.1, f dt p.2)
    | none => p)

/-- Lookup of a node by id in the node dict. -/
def lookupNode (ns : List (String × Node)) (k : String) : Option Node :=
  (ns.find? (fun p => p.1 = k)).map (fun p => p.2)

/-- In-place replacement of the node stored under an id. -/
def setNode (ns : List (String × Node)) (k : String) (n : Node) :
    List (String × Node) :=
  ns.map (fun p => if p.1 = k then (k, n) else p)

/-- The coherence list `[n.local_coherence for n in nodes.values()]`. -/
def nodesCoh (ns : List (String × Node)) : List ℚ :=
  ns.map (fun p => p.2.local_coherence)

/-- Phase 2 of `Hypergraph.evolve`: execute the handover list in order.
A `Handover` entry consumes one random draw (`draws i` is the i-th draw
of this step); when it returns a result and the target node exposes the
`update_from_handover` capability (the environment `upd`), the target is
updated in place, otherwise the result is silently discarded.
`InterTheoryHandover` entries are skipped (the source's `pass`). -/
noncomputable def runHandovers (upd : String → Option (α → Node → Node))
    (draws : ℕ → ℚ) :
    ℕ → List (HEdge α) → List (String × Node) →
      List (String × Node) × List (HEdge α)
  | _, [], ns => (ns, [])
  | i, HEdge.inter a b f :: rest, ns =>
    let p := runHandovers upd draws i rest ns
    (p.1, HEdge.inter a b f :: p.2)
  | i, HEdge.ho h :: rest, ns =>
    match lookupNode ns h.source with
    | none =>
      let p := runHandovers upd draws (i + 1) rest ns
      (p.1, HEdge.ho h :: p.2)
    | some src =>
      let e := h.execute (draws i) src
      let ns1 :=
        match e.2 with
        | none => ns
        | some r =>
          match upd h.target, lookupNode ns h.target with
          | some f, some tgt => setNode ns h.target (f r tgt)
          | _, _ => ns
      let p := runHandovers upd draws (i + 1) rest ns1
      (p.1, HEdge.ho e.1 :: p.2)

/-- The method `Hypergraph.evolve(dt)`: evolve every node, execute the
handovers, recompute `global_coherence` as `np.mean` of the current
coherences, and append `{time: len(history)*dt, coherence}` to the
history (the length is read before the append). -/
noncomputable def Hypergraph.evolve (g : Hypergraph α)
    (dyn : String → Option (ℚ → Node → Node))
    (upd : String → Option (α → Node → Node))
    (draws : ℕ → ℚ) (dt : ℚ) : Hypergraph α :=
  let p := runHandovers upd draws 0 g.handovers (evolveNodes dyn dt g.nodes)
  { name := g.name
    nodes := p.1
    handovers := p.2
    global_coherence := npMean (nodesCoh p.1)
    integration_phi := g.integration_phi
    history := g.history ++ [((g.history.length : ℚ) * dt, npMean (nodesCoh p.1))] }

/-- A draw-free firing of a handover, following the specification's
full-fidelity reading: the gate always passes, the phase term is
accumulated once and `map_state` is invoked once. -/
noncomputable def Handover.fire (h : Handover α) (src : Node) :
    Handover α × Option α :=
  ({ h with phase_accumulated :=
      h.phase_accumulated + npAngle src.local_coherence h.entanglement },
    h.map_state src)

/-- The deterministic handover pass in which every `Handover` entry fires
exactly once, used to state that a full-fidelity step has no
randomness. -/
noncomputable def runAllFire (upd : String → Option (α → Node → Node)) :
    List (HEdge α) → List (String × Node) →
      List (String × Node) × List (HEdge α)
  | [], ns => (ns, [])
  | HEdge.inter a b f :: rest, ns =>
    let p := runAllFire upd rest ns
    (p.1, HEdge.inter a b f :: p.2)
  | HEdge.ho h :: rest, ns =>
    match lookupNode ns h.source with
    | none =>
      let p := runAllFire upd rest ns
      (p.1, HEdge.ho h :: p.2)
    | some src =>
      let e := h.fire src
      let ns1 :=
        match e.2 with
        | none => ns
        | some r =>
          match upd h.target, lookupNode ns h.target with
          | some f, some tgt => setNode ns h.target (f r tgt)
          | _, _ => ns
      let p := runAllFire upd rest ns1
      (p.1, HEdge.ho e.1 :: p.2)

/-- The deterministic analogue of `Hypergraph.evolve` in which every
`Handover` fires exactly once. -/
noncomputable def Hypergraph.evolveAllFire (g : Hypergraph α)
    (dyn : String → Option (ℚ → Node → Node))
    (upd : String → Option (α → Node → Node)) (dt : ℚ) : Hypergraph α :=
  let p := runAllFire upd g.handovers (evolveNodes dyn dt g.nodes)
  { name := g.name
    nodes := p.1
    handovers := p.2
    global_coherence := npMean (nodesCoh p.1)
    integration_phi := g.integration_phi
    history := g.history ++ [((g.history.length : ℚ) * dt, npMean (nodesCoh p.1))] }

/-- Iterated stepping: `n` calls of `Hypergraph.evolve` with the same
`dt`, step `k` using the draw stream `drawss k`. -/
noncomputable def Hypergraph.evolveN (dyn : String → Option (ℚ → Node → Node))
    (upd : String → Option (α → Node → Node))
    (drawss : ℕ → ℕ → ℚ) (dt : ℚ) : ℕ → Hypergraph α → Hypergraph α
  | 0, g => g
  | n + 1, g =>
    (Hypergraph.evolveN dyn upd drawss dt n g).evolve dyn upd (drawss n) dt

/-- The square array bound to the tensor variable `g` in the
tensor-subscript scenario. -/
def gArr : List (List ℚ) := [[10, 20], [30, 40]]

/-- The compile-time context of the tensor-subscript scenario: one
TENSOR variable `g`. -/
def ctx5 : List (List Char × ANLType) := [("g".toList, ANLType.TENSOR)]

/-- The runtime evaluation environment of the tensor-subscript scenario:
`g` bound to the square array. -/
def env5 : List Char → Option PyVal :=
  fun id => if id = "g".toList then some (PyVal.mat gArr) else none

/-- The compile-time context of the scalar round-trip scenario: one
SCALAR variable `r`. -/
def ctx6 : List (List Char × ANLType) := [("r".toList, ANLType.SCALAR)]

/-- The runtime evaluation environment of the scalar round-trip
scenario: the name `context` bound to the dict `{r: ANLValue(SCALAR, (),
3.0)}`, as the closure returned by `parse` expects. -/
def env6 : List Char → Option PyVal :=
  fun id =>
    if id = "context".toList then
      some (PyVal.dict [("r".toList, PyVal.anlval ANLType.SCALAR (PyVal.num 3))])
    else none

/-- The exact rational value of the table constant `pi`
(`str(np.pi) = "3.141592653589793"`). -/
def piRat : ℚ := 3141592653589793 / 1000000000000000

/-- A node `a` with coherence 1. -/
def nodeA : Node := ⟨"a", ANLType.NODE, [], 1⟩

/-- A node `b` with coherence 0. -/
def nodeB : Node := ⟨"b", ANLType.NODE, [], 0⟩

/-- A node `s` with coherence 0, source of the zero-fidelity handover. -/
def nodeS : Node := ⟨"s", ANLType.NODE, [], 0⟩

/-- A full-fidelity handover `a -> b` whose `map_state` returns the fixed
value 42. -/
noncomputable def hab : Handover ℚ :=
  ⟨"h_ab", "a", "b", PreservationProtocol.CONSERVATIVE, fun _ => some 42, 1, 0, 0⟩

/-- A zero-fidelity handover with entanglement 1 whose `map_state`
returns the fixed value 7. -/
noncomputable def h0fid : Handover ℚ :=
  ⟨"h_0", "s", "t", PreservationProtocol.CREATIVE, fun _ => some 7, 0, 1, 0⟩

/-- The two-node scenario graph: `a` (coherence 1), `b` (coherence 0),
one handover `a -> b` at full fidelity. -/
noncomputable def G9 : Hypergraph ℚ :=
  ⟨"G9", [("a", nodeA), ("b", nodeB)], [HEdge.ho hab], RVal.fin 0, 0, []⟩

/-- A one-node graph with coherence 1 and no handovers. -/
def G1 : Hypergraph ℚ :=
  ⟨"G1", [("a", nodeA)], [], RVal.fin 0, 0, []⟩

/-- The empty dynamics environment: no node has a `dynamics` callback. -/
def noDyn : String → Option (ℚ → Node → Node) := fun _ => none

/-- The empty update environment: no node exposes the
`update_from_handover` capability (the source's `Node` dataclass indeed
defines no such method). -/
def noUpd : String → Option (ℚ → Node → Node) := fun _ => none

/-- C3 (amended): with `fidelity = 0.0`, a handover does not fire for any
draw in the open interval `(0,1)`: `execute` returns `None` with the
handover state (in particular `phase_accumulated`) unchanged and
`map_state` not invoked.  (At the draw exactly `0.0` the gate `0 > 0`
fails and the handover does fire; see the counterexample.) -/
theorem execute_zero_fidelity_skip_positive_draw {α : Type} (h : Handover α)
    (src : Node) (d : ℚ) (hf : h.fidelity = 0) (hd : 0 < d) :
    h.execute d src = (h, none) := by
  rw [Handover.execute, if_pos]
  rw [hf]
  exact hd

/-- C3 (witness): the zero-fidelity handover is skipped at draw 1/2. -/
theorem execute_zero_fidelity_skip_positive_draw_witness :
    h0fid.execute (1/2) nodeS = (h0fid, none) :=
  execute_zero_fidelity_skip_positive_draw h0fid nodeS (1/2) rfl (by norm_num)

/-- C3 (counterexample): with `fidelity = 0.0` and the draw exactly `0.0`
(a value `np.random.random()` does attain), the gate `0 > 0` is false, so
the handover fires: `map_state` is invoked and its value is returned,
contradicting the claim that no draw in `[0,1)` fires the handover. -/
theorem execute_zero_fidelity_fires_at_zero_draw :
    (h0fid.execute 0 nodeS).2 = some 7 ∧ (0:ℚ) ≤ 0 ∧ (0:ℚ) < 1 := by
  refine ⟨?_, le_refl 0, by norm_num⟩
  simp [Handover.execute, h0fid]

/-- C7: every successful firing with the source coherence and the
entanglement held fixed adds the same phase delta
`angle(complex(local_coherence, entanglement))`, and after two firings
the accumulated phase exceeds the initial one by exactly twice the
single-firing delta. -/
theorem execute_phase_double_fire {α : Type} (h : Handover α) (src : Node)
    (d1 d2 : ℚ) (h1 : d1 ≤ h.fidelity) (h2 : d2 ≤ h.fidelity) :
    ((h.execute d1 src).1.execute d2 src).1.phase_accumulated
        - (h.execute d1 src).1.phase_accumulated
      = (h.execute d1 src).1.phase_accumulated - h.phase_accumulated
    ∧ ((h.execute d1 src).1.execute d2 src).1.phase_accumulated
      = h.phase_accumulated + 2 * npAngle src.local_coherence h.entanglement := by
  have hn1 : ¬ d1 > h.fidelity := not_lt.mpr h1
  have hn2 : ¬ d2 > h.fidelity := not_lt.mpr h2
  simp only [Handover.execute, if_neg hn1]
  simp only [if_neg hn2]
  constructor <;> ring

/-- C7 (witness): two firings of the full-fidelity handover at draw 0. -/
theorem execute_phase_double_fire_witness :
    ((hab.execute 0 nodeA).1.execute 0 nodeA).1.phase_accumulated
        - (hab.execute 0 nodeA).1.phase_accumulated
      = (hab.execute 0 nodeA).1.phase_accumulated - hab.phase_accumulated
    ∧ ((hab.execute 0 nodeA).1.execute 0 nodeA).1.phase_accumulated
      = hab.phase_accumulated + 2 * npAngle nodeA.local_coherence hab.entanglement :=
  execute_phase_double_fire hab nodeA 0 0 (by norm_num [hab]) (by norm_num [hab])

/-- C10: a handover whose draw exceeds its fidelity is skipped: `execute`
returns the unchanged handover (same `phase_accumulated`) with an empty
result and without invoking `map_state`, and in the handover pass of a
step such an entry leaves the node map untouched. -/
theorem execute_skip_frame {α : Type} (h : Handover α) (src : Node)
    (upd : String → Option (α → Node → Node)) (draws : ℕ → ℚ) (i : ℕ)
    (rest : List (HEdge α)) (ns : List (String × Node))
    (hgt : draws i > h.fidelity) :
    h.execute (draws i) src = (h, none)
    ∧ runHandovers upd draws i (HEdge.ho h :: rest) ns
        = ((runHandovers upd draws (i+1) rest ns).1,
           HEdge.ho h :: (runHandovers upd draws (i+1) rest ns).2) := by
  have he : ∀ s : Node, h.execute (draws i) s = (h, none) := by
    intro s
    rw [Handover.execute, if_pos hgt]
  refine ⟨he src, ?_⟩
  rw [runHandovers]
  cases hsrc : lookupNode ns h.source with
  | none => simp
  | some src2 => simp [he src2]

/-- C10 (witness): the zero-fidelity handover is skipped at draw 1/2 and
leaves the node map unchanged. -/
theorem execute_skip_frame_witness :
    h0fid.execute ((fun _ => (1:ℚ)/2) 0) nodeS = (h0fid, none)
    ∧ runHandovers noUpd (fun _ => (1:ℚ)/2) 0 [HEdge.ho h0fid] [("s", nodeS)]
        = ((runHandovers noUpd (fun _ => (1:ℚ)/2) 1 [] [("s", nodeS)]).1,
           HEdge.ho h0fid :: (runHandovers noUpd (fun _ => (1:ℚ)/2) 1 [] [("s", nodeS)]).2) :=
  execute_skip_frame h0fid nodeS noUpd (fun _ => (1:ℚ)/2) 0 [] [("s", nodeS)]
    (by norm_num [h0fid])

/-- C5 (code bug): compiling `"g_0_1"` with a TENSOR context variable `g`
produces the text `g[0_1]`, not the multi-index access `g[0,1]` that the
source's own comment (`g_mu_nu -> g[mu, nu]`) promises: the greedy
`\w+` regex group swallows the underscore between the two indices and no
comma is ever inserted.  Evaluating the compiled text then raises a
`SyntaxError` (`0_1` is a decimal literal with a leading zero), modelled
as `none`, whereas direct indexing of the bound square array yields 20. -/
theorem tensor_subscript_rewrite_bug :
    ExpressionEngine.parse ctx5 ("g_0_1".toList) = "g[0_1]".toList
    ∧ evalExpr env5 (ExpressionEngine.parse ctx5 ("g_0_1".toList)) = none
    ∧ matIndex gArr 0 1 = some 20 :=
  ⟨rfl, rfl, rfl⟩

/-- C6: compiling `"2 * pi * r"` against the built-in constant table with
a SCALAR context variable `r`, then evaluating the compiled text on a
runtime context binding `r` to `3.0`, returns `2 * pi * 3.0` exactly for
the table's `pi` (the decimal `str(np.pi)`), which is within `1e-9` of
the true `2·π·3`. -/
theorem parse_two_pi_r_roundtrip :
    ∃ q : ℚ,
      evalExpr env6 (ExpressionEngine.parse ctx6 ("2 * pi * r".toList))
        = some (PyVal.num q)
      ∧ q = 2 * piRat * 3
      ∧ |(q : ℝ) - 2 * Real.pi * 3| ≤ 1 / 1000000000 := by
  refine ⟨2 * piRat * 3, ?_, rfl, ?_⟩
  · rw [show (2 * piRat * 3 : ℚ) = 9424777960769379 / 500000000000000 by
      norm_num [piRat]]
    with_unfolding_all rfl
  have h1 := Real.pi_gt_d20
  have h2 := Real.pi_lt_d20
  rw [abs_le]
  have hq : ((2 * piRat * 3 : ℚ) : ℝ) = 9424777960769379 / 500000000000000 := by
    norm_num [piRat]
  rw [hq]
  norm_num at h1 h2 ⊢
  constructor <;> nlinarith

/-- Replacement of a node in the dict preserves its size. -/
theorem setNode_length (ns : List (String × Node)) (k : String) (n : Node) :
    (setNode ns k n).length = ns.length := by
  simp [setNode]

/-- The handover pass preserves the size of the node dict. -/
theorem runHandovers_length {α : Type} (upd : String → Option (α → Node → Node))
    (draws : ℕ → ℚ) :
    ∀ (es : List (HEdge α)) (i : ℕ) (ns : List (String × Node)),
      (runHandovers upd draws i es ns).1.length = ns.length := by
  intro es
  induction es with
  | nil => intro i ns; rfl
  | cons e rest ih =>
    intro i ns
    cases e with
    | inter a b f => simp only [runHandovers]; exact ih i ns
    | ho h =>
      rw [runHandovers]
      cases hsrc : lookupNode ns h.source with
      | none => simp only []; exact ih (i+1) ns
      | some src =>
        simp only []
        rw [ih]
        split
        · rfl
        · split
          · simp [setNode]
          · rfl

/-- The coherence list has one entry per node. -/
theorem nodesCoh_length (ns : List (String × Node)) :
    (nodesCoh ns).length = ns.length := by
  simp [nodesCoh]

/-- C1: after a step, `global_coherence` is exactly the arithmetic mean
(sum divided by count) of the `local_coherence` of the nodes then in the
graph; exact equality in the real-arithmetic abstraction of floats, hence
within the claimed `1e-9`. -/
theorem evolve_global_coherence_is_mean {α : Type} (g : Hypergraph α)
    (dyn : String → Option (ℚ → Node → Node))
    (upd : String → Option (α → Node → Node)) (draws : ℕ → ℚ) (dt : ℚ)
    (hne : g.nodes ≠ []) :
    (g.evolve dyn upd draws dt).global_coherence
      = RVal.fin ((nodesCoh (g.evolve dyn upd draws dt).nodes).sum
          / ((g.evolve dyn upd draws dt).nodes.length : ℚ)) := by
  have hlen : (g.evolve dyn upd draws dt).nodes.length = g.nodes.length := by
    show (runHandovers upd draws 0 g.handovers (evolveNodes dyn dt g.nodes)).1.length
        = g.nodes.length
    rw [runHandovers_length]
    simp [evolveNodes]
  have hne2 : nodesCoh (g.evolve dyn upd draws dt).nodes ≠ [] := by
    intro hnil
    apply hne
    have hl := congrArg List.length hnil
    rw [nodesCoh_length, hlen] at hl
    exact List.length_eq_zero.mp hl
  have hcoh : (g.evolve dyn upd draws dt).global_coherence
      = npMean (nodesCoh (g.evolve dyn upd draws dt).nodes) := rfl
  rw [hcoh, npMean.eq_def]
  rw [if_neg (by simpa using hne2)]
  rw [nodesCoh_length]

/-- C1 (witness): the one-node graph. -/
theorem evolve_global_coherence_is_mean_witness :
    (G1.evolve noDyn noUpd (fun _ => 0) 1).global_coherence
      = RVal.fin ((nodesCoh (G1.evolve noDyn noUpd (fun _ => 0) 1).nodes).sum
          / ((G1.evolve noDyn noUpd (fun _ => 0) 1).nodes.length : ℚ)) :=
  evolve_global_coherence_is_mean G1 noDyn noUpd (fun _ => 0) 1 (by simp [G1])

/-- With every handover at full fidelity and every draw below 1, the
randomized handover pass coincides with the deterministic all-fire
pass. -/
theorem runHandovers_eq_runAllFire {α : Type}
    (upd : String → Option (α → Node → Node)) (draws : ℕ → ℚ)
    (hdr : ∀ j, 0 ≤ draws j ∧ draws j < 1) :
    ∀ (es : List (HEdge α)), (∀ h2, HEdge.ho h2 ∈ es → h2.fidelity = 1) →
      ∀ (i : ℕ) (ns : List (String × Node)),
        runHandovers upd draws i es ns = runAllFire upd es ns := by
  intro es
  induction es with
  | nil => intro _ i ns; rfl
  | cons e rest ih =>
    intro hf i ns
    have hfr : ∀ h2, HEdge.ho h2 ∈ rest → h2.fidelity = 1 := by
      intro h2 hm
      exact hf h2 (List.mem_cons_of_mem _ hm)
    cases e with
    | inter a b f =>
      simp only [runHandovers, runAllFire]
      rw [ih hfr]
    | ho h =>
      have hfid : h.fidelity = 1 := hf h (List.mem_cons_self _ _)
      have hexe : ∀ src : Node, h.execute (draws i) src = h.fire src := by
        intro src
        rw [Handover.execute, Handover.fire, if_neg]
        rw [hfid]
        exact not_lt.mpr (le_of_lt (hdr i).2)
      rw [runHandovers, runAllFire]
      cases hsrc : lookupNode ns h.source with
      | none => simp only []; rw [ih hfr]
      | some src => simp only [hexe src]; rw [ih hfr]

/-- C2: with `fidelity = 1.0` on every handover, a step has no
randomness: for every draw stream in `[0,1)`, `evolve` coincides with the
deterministic all-fire step, in which each `Handover` accumulates its
phase term exactly once and invokes `map_state` exactly once. -/
theorem evolve_full_fidelity_fires_all {α : Type} (g : Hypergraph α)
    (dyn : String → Option (ℚ → Node → Node))
    (upd : String → Option (α → Node → Node)) (draws : ℕ → ℚ) (dt : ℚ)
    (hdr : ∀ j, 0 ≤ draws j ∧ draws j < 1)
    (hf : ∀ h2, HEdge.ho h2 ∈ g.handovers → h2.fidelity = 1) :
    g.evolve dyn upd draws dt = g.evolveAllFire dyn upd dt := by
  simp only [Hypergraph.evolve, Hypergraph.evolveAllFire]
  rw [runHandovers_eq_runAllFire upd draws hdr g.handovers hf]

/-- C2 (witness): the two-node full-fidelity graph with the constant
draw 0. -/
theorem evolve_full_fidelity_fires_all_witness :
    G9.evolve noDyn noUpd (fun _ => 0) 1 = G9.evolveAllFire noDyn noUpd 1 :=
  evolve_full_fidelity_fires_all G9 noDyn noUpd (fun _ => 0) 1
    (fun _ => ⟨le_refl 0, by norm_num⟩)
    (by
      intro h2 hm
      simp [G9] at hm
      rw [hm]
      rfl)

/-- One step appends exactly one history record, whose time field is
`len(history) * dt` read before the append. -/
theorem evolve_history_eq {α : Type} (g : Hypergraph α)
    (dyn : String → Option (ℚ → Node → Node))
    (upd : String → Option (α → Node → Node)) (draws : ℕ → ℚ) (dt : ℚ) :
    (g.evolve dyn upd draws dt).history
      = g.history ++ [((g.history.length : ℚ) * dt,
          (g.evolve dyn upd draws dt).global_coherence)] := rfl

/-- Iterating `n` steps from a fresh history produces `n` records, the
k-th carrying time `k * dt`. -/
theorem evolveN_history {α : Type} (dyn : String → Option (ℚ → Node → Node))
    (upd : String → Option (α → Node → Node)) (drawss : ℕ → ℕ → ℚ) (dt : ℚ)
    (g : Hypergraph α) (hg : g.history = []) :
    ∀ n : ℕ, (Hypergraph.evolveN dyn upd drawss dt n g).history.length = n
      ∧ ∀ k, k < n →
          ∃ c, (Hypergraph.evolveN dyn upd drawss dt n g).history[k]?
            = some ((k : ℚ) * dt, c) := by
  intro n
  induction n with
  | zero =>
    refine ⟨?_, ?_⟩
    · rw [Hypergraph.evolveN, hg]
      rfl
    · intro k hk
      exact absurd hk (Nat.not_lt_zero k)
  | succ n ih =>
    obtain ⟨ihl, ihk⟩ := ih
    have hstep : (Hypergraph.evolveN dyn upd drawss dt (n+1) g).history
        = (Hypergraph.evolveN dyn upd drawss dt n g).history
          ++ [(((Hypergraph.evolveN dyn upd drawss dt n g).history.length : ℚ) * dt,
              ((Hypergraph.evolveN dyn upd drawss dt n g).evolve dyn upd (drawss n) dt).global_coherence)] := by
      rw [Hypergraph.evolveN]
      exact evolve_history_eq _ dyn upd (drawss n) dt
    refine ⟨?_, ?_⟩
    · rw [hstep, List.length_append, ihl]
      rfl
    · intro k hk
      rcases Nat.lt_succ_iff_lt_or_eq.mp hk with hlt | heq
      · obtain ⟨c, hc⟩ := ihk k hlt
        refine ⟨c, ?_⟩
        rw [hstep, List.getElem?_append, if_pos (by rw [ihl]; exact hlt)]
        exact hc
      · refine ⟨((Hypergraph.evolveN dyn upd drawss dt n g).evolve dyn upd (drawss n) dt).global_coherence, ?_⟩
        have hkl : (Hypergraph.evolveN dyn upd drawss dt n g).history.length = k :=
          ihl.trans heq.symm
        rw [hstep, List.getElem?_append, if_neg (by rw [hkl]; exact lt_irrefl k),
          hkl, Nat.sub_self]
        rfl

/-- C4: each `evolve` call appends exactly one record to the history
(the previous history is preserved as a prefix), the appended record has
time `len(history)*dt`, and stepping a fresh graph `n` times with a
constant `dt` gives `history[k].time = k*dt` for every `k < n`. -/
theorem evolve_history_spec {α : Type} (g g0 : Hypergraph α)
    (dyn : String → Option (ℚ → Node → Node))
    (upd : String → Option (α → Node → Node)) (draws : ℕ → ℚ)
    (drawss : ℕ → ℕ → ℚ) (dt : ℚ) (n k : ℕ)
    (h0 : g0.history = []) (hk : k < n) :
    (g.evolve dyn upd draws dt).history
        = g.history ++ [((g.history.length : ℚ) * dt,
            (g.evolve dyn upd draws dt).global_coherence)]
    ∧ ∃ c, (Hypergraph.evolveN dyn upd drawss dt n g0).history[k]?
        = some ((k : ℚ) * dt, c) :=
  ⟨evolve_history_eq g dyn upd draws dt,
   (evolveN_history dyn upd drawss dt g0 h0 n).2 k hk⟩

/-- C4 (witness): two steps of the fresh one-node graph, record 1. -/
theorem evolve_history_spec_witness :
    (G9.evolve noDyn noUpd (fun _ => 0) 1).history
        = G9.history ++ [((G9.history.length : ℚ) * 1,
            (G9.evolve noDyn noUpd (fun _ => 0) 1).global_coherence)]
    ∧ ∃ c, (Hypergraph.evolveN noDyn noUpd (fun _ _ => 0) 1 2 G1).history[1]?
        = some ((1 : ℚ) * 1, c) :=
  evolve_history_spec G9 G1 noDyn noUpd (fun _ => 0) (fun _ _ => 0) 1 2 1 rfl
    (by norm_num)

/-- C8 (counterexample): stepping an empty graph does not signal an
`EmptyGraph` error condition and does not set `global_coherence` to
zero: `np.mean([])` is NaN, and the step completes with NaN stored. -/
theorem evolve_empty_graph_counterexample :
    ((emptyHypergraph ℚ "G").evolve noDyn noUpd (fun _ => 0) 1).global_coherence
      = RVal.nan
    ∧ RVal.nan ≠ RVal.fin 0 := by
  refine ⟨rfl, ?_⟩
  intro h
  exact RVal.noConfusion h

/-- C8 (amended): `evolve` on an empty graph completes without signalling
any error, and `global_coherence` becomes NaN (numpy's empty mean, with
only a RuntimeWarning) — neither an `EmptyGraph` failure nor zero. -/
theorem evolve_empty_graph_nan {α : Type} (name : String)
    (dyn : String → Option (ℚ → Node → Node))
    (upd : String → Option (α → Node → Node)) (draws : ℕ → ℚ) (dt : ℚ) :
    ((emptyHypergraph α name).evolve dyn upd draws dt).global_coherence
      = RVal.nan := rfl

/-- C9: in the two-node scenario (`a` coherence 1, `b` coherence 0, one
full-fidelity handover `a -> b` whose target lacks the
`update_from_handover` capability), a step completes without error, the
returned result is silently discarded (both nodes are unchanged), and
`global_coherence` becomes 0.5. -/
theorem evolve_soft_failure_scenario (d : ℚ) (h0 : 0 ≤ d) (h1 : d < 1) :
    (G9.evolve noDyn noUpd (fun _ => d) 1).global_coherence = RVal.fin (1/2)
    ∧ lookupNode (G9.evolve noDyn noUpd (fun _ => d) 1).nodes "b" = some nodeB
    ∧ lookupNode (G9.evolve noDyn noUpd (fun _ => d) 1).nodes "a" = some nodeA := by
  have hng : ¬ d > hab.fidelity := by
    rw [show hab.fidelity = 1 from rfl]
    exact not_lt.mpr (le_of_lt h1)
  have hexe : hab.execute d nodeA
      = ({ hab with phase_accumulated :=
            hab.phase_accumulated + npAngle nodeA.local_coherence hab.entanglement },
         some 42) := by
    rw [Handover.execute, if_neg hng]
    rfl
  have hrun : runHandovers noUpd (fun _ => d) 0 G9.handovers
        (evolveNodes noDyn 1 G9.nodes)
      = ([("a", nodeA), ("b", nodeB)], [HEdge.ho (hab.execute d nodeA).1]) := by
    rw [show evolveNodes noDyn 1 G9.nodes = [("a", nodeA), ("b", nodeB)] from rfl,
        show G9.handovers = [HEdge.ho hab] from rfl]
    rw [runHandovers]
    rw [show lookupNode [("a", nodeA), ("b", nodeB)] hab.source = some nodeA from rfl]
    simp only [hexe, noUpd, runHandovers]
  have hnodes : (G9.evolve noDyn noUpd (fun _ => d) 1).nodes
      = [("a", nodeA), ("b", nodeB)] := by
    show (runHandovers noUpd (fun _ => d) 0 G9.handovers
        (evolveNodes noDyn 1 G9.nodes)).1 = _
    rw [hrun]
  have hcoh : (G9.evolve noDyn noUpd (fun _ => d) 1).global_coherence
      = npMean (nodesCoh [("a", nodeA), ("b", nodeB)]) := by
    show npMean (nodesCoh (runHandovers noUpd (fun _ => d) 0 G9.handovers
        (evolveNodes noDyn 1 G9.nodes)).1) = _
    rw [hrun]
  refine ⟨?_, ?_, ?_⟩
  · rw [hcoh, show nodesCoh [("a", nodeA), ("b", nodeB)] = [1, 0] from rfl]
    rw [npMean.eq_def]
    norm_num
  · rw [hnodes]
    rfl
  · rw [hnodes]
    rfl

/-- C9 (witness): the scenario at the concrete draw 0. -/
theorem evolve_soft_failure_scenario_witness :
    (G9.evolve noDyn noUpd (fun _ => 0) 1).global_coherence = RVal.fin (1/2)
    ∧ lookupNode (G9.evolve noDyn noUpd (fun _ => 0) 1).nodes "b" = some nodeB
    ∧ lookupNode (G9.evolve noDyn noUpd (fun _ => 0) 1).nodes "a" = some nodeA :=
  evolve_soft_failure_scenario 0 (le_refl 0) (by norm_num)
